import Mathlib

/-!
# bolter: pagination over an ordered key-value cursor

A shallow embedding of `bolter.go` (package `bolter`): the `Pagination` state object,
its constructors `NewPagination` and `NextPage`, the positioning helpers `seekToFirst`
and `next`, and the traversal `ForEach`, together with theorems about them.

Byte slices are lists of numbers, a nil slice or a nil error is `none`, and the
callback is a state-passing function, so that closures that keep state between
invocations are covered.
-/

namespace Bolter

/-- A non-nil byte slice. -/
abbrev Bytes := List Nat

/-- A record of the range: key and value. -/
abbrev Rec := Bytes × Bytes

/-- Lexicographic comparison of byte slices, as `bytes.Compare`. -/
def bytesCompare : Bytes → Bytes → Ordering
  | [], [] => Ordering.eq
  | [], _ :: _ => Ordering.lt
  | _ :: _, [] => Ordering.gt
  | a :: as, b :: bs =>
    if a < b then Ordering.lt else if b < a then Ordering.gt else bytesCompare as bs

/-- Strict key order of the store. -/
def keyLt (a b : Bytes) : Prop := bytesCompare a b = Ordering.lt

instance (a b : Bytes) : Decidable (keyLt a b) := by
  unfold keyLt; infer_instance

/-! ## The cursor -/

/-- Modelled from the spec: the external cursor (`bolt.Cursor`), which is a dependency and
not part of this repository. The range is the list `recs` of records in ascending key
order; `idx` is the index of the element the cursor is on, and `stack` tells whether the
cursor holds a position at all (it does not before the first positioning call and after
`Prev` has run off the front). -/
structure Cursor where
  recs : List Rec
  idx : Nat
  stack : Bool
  deriving DecidableEq, Repr

/-- A cursor freshly opened on a range. -/
def Cursor.fresh (recs : List Rec) : Cursor := { recs := recs, idx := 0, stack := false }

/-- Modelled from the spec: `Cursor.First`, positioning at the range start; the exhausted
result `none` on an empty range. -/
def Cursor.First (c : Cursor) : Option Rec × Cursor :=
  let c1 : Cursor := { c with idx := 0, stack := true }
  (c1.recs[c1.idx]?, c1)

/-- Modelled from the spec: `Cursor.Last`, positioning at the range end; the exhausted
result `none` on an empty range. -/
def Cursor.Last (c : Cursor) : Option Rec × Cursor :=
  let c1 : Cursor := { c with idx := c.recs.length - 1, stack := true }
  (c1.recs[c1.idx]?, c1)

/-- Modelled from the spec: `Cursor.Next`, one step forward; at the last element (or
without a position) it returns the exhausted result and stays where it is. -/
def Cursor.Next (c : Cursor) : Option Rec × Cursor :=
  if c.stack = true ∧ c.idx + 1 < c.recs.length then
    let c1 : Cursor := { c with idx := c.idx + 1 }
    (c1.recs[c1.idx]?, c1)
  else (none, c)

/-- Modelled from the spec: `Cursor.Prev`, one step backward; at the first element (or
without a position) it returns the exhausted result and gives up its position. -/
def Cursor.Prev (c : Cursor) : Option Rec × Cursor :=
  if c.stack = true ∧ 0 < c.idx then
    let c1 : Cursor := { c with idx := c.idx - 1 }
    (c1.recs[c1.idx]?, c1)
  else (none, { c with stack := false })

/-- Modelled from the spec: `Cursor.Seek`, positioning at the first record whose key is
greater than or equal to `seek` (standard ordered-seek semantics); when there is none the
cursor is past the last element and the result is that of moving forward from there,
which is the exhausted result. -/
def Cursor.Seek (c : Cursor) (seek : Bytes) : Option Rec × Cursor :=
  let i := c.recs.findIdx (fun r => bytesCompare r.1 seek != Ordering.lt)
  let c1 : Cursor := { c with idx := i, stack := true }
  if c1.recs.length ≤ i then c1.Next else (c1.recs[i]?, c1)

/-! ## The pagination engine (`bolter.go`) -/

/-- The type `Order`: an integer, of which `Desc` and `Asc` are the named values. -/
abbrev Order := Int

/-- The constant `Desc` (`iota` = 0). -/
def Desc : Order := 0

/-- The constant `Asc` (1). -/
def Asc : Order := 1

/-- A non-nil `error` value: the sentinel `ErrPaginationExlucde`, told apart from every
other error by identity, or any other error. -/
inductive GoError where
  | ErrPaginationExlucde
  | other (tag : Nat)
  deriving DecidableEq, Repr

/-- The struct `Pagination`; `key` and `LastKey` are nil-able byte slices. -/
structure Pagination where
  key : Option Bytes
  LastKey : Option Bytes
  Limit : Int
  ExcludeFirst : Bool
  Order : Bolter.Order
  deriving DecidableEq, Repr

/-- The constructor `NewPagination`. -/
def NewPagination (key : Option Bytes) (count : Int) (order : Order) : Pagination :=
  { key := key, LastKey := none, Limit := count, ExcludeFirst := true, Order := order }

/-- The method `NextPage`. -/
def Pagination.NextPage (p : Pagination) (count : Int) (order : Bolter.Order) : Pagination :=
  { key := p.LastKey, LastKey := none, ExcludeFirst := true, Limit := count, Order := order }

/-- The method `next`: `Next` for `Asc`, `Prev` for every other order. -/
def Pagination.next (p : Pagination) (c : Cursor) : Option Rec × Cursor :=
  if p.Order = Asc then c.Next else c.Prev

/-- The method `seekToFirst`. -/
def Pagination.seekToFirst (p : Pagination) (c : Cursor) : Option Rec × Cursor :=
  match p.key with
  | none => if p.Order = Asc then c.First else c.Last
  | some key =>
    let r := c.Seek key
    if p.ExcludeFirst = true then p.next r.2 else r

/-- The callback type `forEachFn`, as a state-passing function: from the closure state
and the two arguments to the returned error and the new closure state. -/
abbrev forEachFn (σ : Type) := σ → Bytes → Bytes → Option GoError × σ

/-- The slice built by `make([]byte, n)`: `n` zero bytes. -/
def makeBytes (n : Nat) : Bytes := List.replicate n 0

/-- The argument handed to the callback for a slice `k`:
`nk := make([]byte, len(k))` followed by `append(nk, k...)`. -/
def copyArg (k : Bytes) : Bytes := makeBytes k.length ++ k

/-- One invocation of the callback: the record the cursor was on, the two arguments the
callback received, and what it returned. -/
structure Call where
  key : Bytes
  value : Bytes
  argKey : Bytes
  argValue : Bytes
  result : Option GoError
  deriving DecidableEq, Repr

/-- The record a call was made on. -/
def Call.record (c : Call) : Rec := (c.key, c.value)

/-- The outcome of a run of `ForEach`: the returned error, the receiver after the call,
the invocations of the callback in order, and the closure state after the call. -/
structure Run (σ : Type) where
  err : Option GoError
  p : Pagination
  calls : List Call
  state : σ

/-- Adds an invocation at the front of a run. -/
def Run.push {σ : Type} (c : Call) (r : Run σ) : Run σ := { r with calls := c :: r.calls }

/-- The loop of `ForEach`, from the loop condition on: `kv` is the current `k, v`, `l` the
accepted count. Each iteration takes one unit of `fuel`; `none` when it runs out. -/
def forEachLoop {σ : Type} (p : Pagination) (fn : forEachFn σ) :
    Nat → Option Rec → Cursor → Nat → σ → Option (Run σ)
  | 0, _, _, _, _ => none
  | _ + 1, none, _, _, s =>
    some { err := none, p := { p with LastKey := none }, calls := [], state := s }
  | fuel + 1, some (k, v), c, l, s =>
    if (l : Int) < p.Limit then
      let out := fn s (copyArg k) (copyArg v)
      let call : Call :=
        { key := k, value := v, argKey := copyArg k, argValue := copyArg v, result := out.1 }
      match out.1 with
      | none =>
        let nx := p.next c
        (forEachLoop p fn fuel nx.1 nx.2 (l + 1) out.2).map (Run.push call)
      | some e =>
        if e ≠ GoError.ErrPaginationExlucde then
          some { err := some e, p := p, calls := [call], state := out.2 }
        else
          let nx := p.next c
          (forEachLoop p fn fuel nx.1 nx.2 l out.2).map (Run.push call)
    else
      some { err := none, p := { p with LastKey := some k }, calls := [], state := s }

/-- The method `ForEach`. The loop is given one more unit of fuel than the range has
records, which is enough for every run (`ForEach_returns`). -/
def Pagination.ForEach {σ : Type} (p : Pagination) (c : Cursor) (fn : forEachFn σ) (s : σ) :
    Option (Run σ) :=
  let first := p.seekToFirst c
  forEachLoop p fn (c.recs.length + 1) first.1 first.2 0 s

/-- The records on which the callback was invoked, in order. -/
def Run.visited {σ : Type} (r : Run σ) : List Rec := r.calls.map Call.record

/-- The number of invocations, among those listed, that returned success. -/
def acceptedIn (calls : List Call) : Nat :=
  (calls.filter (fun c => c.result.isNone)).length

/-- The number of invocations of a run that returned success. -/
def Run.accepted {σ : Type} (r : Run σ) : Nat := acceptedIn r.calls

/-- A result of the callback that is a failure: neither nil nor `ErrPaginationExlucde`. -/
def Failure (res : Option GoError) : Prop :=
  res ≠ none ∧ res ≠ some GoError.ErrPaginationExlucde

instance (res : Option GoError) : Decidable (Failure res) := by
  unfold Failure; infer_instance

/-- A callback without state that always fails, with an error of its own. -/
def fnFail : forEachFn Unit := fun s _ _ => (some (GoError.other 7), s)

/-- A first-page Pagination with `Limit` 1 and `Asc` whose `LastKey` holds the key z, as
left by an earlier run. -/
def pageZ : Pagination :=
  { key := none, LastKey := some [122], Limit := 1, ExcludeFirst := true, Order := Asc }

/-- Page 1 by `NewPagination(nil, n, order)`, then page 2 by `NextPage(n, order)` of
page 1 on a fresh cursor over the same range: the records visited by the two runs, one
after the other. -/
def twoPages {σ : Type} (recs : List Rec) (n : Int) (order : Order) (fn : forEachFn σ) (s : σ) :
    Option (List Rec) :=
  match (NewPagination none n order).ForEach (Cursor.fresh recs) fn s with
  | none => none
  | some r1 =>
    match (r1.p.NextPage n order).ForEach (Cursor.fresh recs) fn r1.state with
    | none => none
    | some r2 => some (r1.visited ++ r2.visited)

/-- A single page by `NewPagination(nil, 2n, order)`: the records visited. -/
def singlePage {σ : Type} (recs : List Rec) (n : Int) (order : Order) (fn : forEachFn σ)
    (s : σ) : Option (List Rec) :=
  ((NewPagination none (2 * n) order).ForEach (Cursor.fresh recs) fn s).map Run.visited

/-- A callback without state that always returns success. -/
def fnSuccess : forEachFn Unit := fun s _ _ => (none, s)

/-- A callback without state that always returns `ErrPaginationExlucde`. -/
def fnExclude : forEachFn Unit := fun s _ _ => (some GoError.ErrPaginationExlucde, s)

/-- The range with keys a, b, c, d, e and values 1 to 5. -/
def abcde : List Rec := [([97], [1]), ([98], [2]), ([99], [3]), ([100], [4]), ([101], [5])]

/-! ## The traversal as a list -/

/-- The records the cursor yields from its current result `kv` on, in the direction of
the pagination: none once exhausted, the current record and all after it for `Asc`, the
current record and all before it, backwards, otherwise. -/
def ahead (p : Pagination) (c : Cursor) : Option Rec → List Rec
  | none => []
  | some _ => if p.Order = Asc then c.recs.drop c.idx else (c.recs.take (c.idx + 1)).reverse

/-- The records in the order in which `ForEach` would meet them without any limit. -/
def Pagination.traversal (p : Pagination) (c : Cursor) : List Rec :=
  ahead p (p.seekToFirst c).2 (p.seekToFirst c).1

/-- The loop of `ForEach` run over a list of records instead of a cursor. -/
def runList {σ : Type} (p : Pagination) (fn : forEachFn σ) : List Rec → Nat → σ → Run σ
  | [], _, s => { err := none, p := { p with LastKey := none }, calls := [], state := s }
  | (k, v) :: rest, l, s =>
    if (l : Int) < p.Limit then
      let out := fn s (copyArg k) (copyArg v)
      let call : Call :=
        { key := k, value := v, argKey := copyArg k, argValue := copyArg v, result := out.1 }
      match out.1 with
      | none => (runList p fn rest (l + 1) out.2).push call
      | some e =>
        if e ≠ GoError.ErrPaginationExlucde then
          { err := some e, p := p, calls := [call], state := out.2 }
        else (runList p fn rest l out.2).push call
    else { err := none, p := { p with LastKey := some k }, calls := [], state := s }

/-- The invocation of the callback on the record `(k, v)` in closure state `s`. -/
def callOn {σ : Type} (fn : forEachFn σ) (s : σ) (k v : Bytes) : Call :=
  { key := k, value := v, argKey := copyArg k, argValue := copyArg v,
    result := (fn s (copyArg k) (copyArg v)).1 }

/-- The result `kv` is what the cursor `c` is on. -/
def OnRec (c : Cursor) (kv : Option Rec) : Prop :=
  ∀ r, kv = some r → c.stack = true ∧ c.recs[c.idx]? = some r

/-- The slice the callback receives for the slice `k`: as many zero bytes as `k` has
bytes, followed by the bytes of `k`. -/
def zeroPadded (k : Bytes) : Bytes := List.replicate k.length 0 ++ k

/-- The invocations made by calling `fn` on the records of `L` one after the other, from
closure state `s` on: each call receives the zero-padded key and value of its record and
the closure state left by the call before it, and logs what `fn` returned. -/
def invocations {σ : Type} (fn : forEachFn σ) : σ → List Rec → List Call
  | _, [] => []
  | s, (k, v) :: rest =>
    { key := k, value := v, argKey := zeroPadded k, argValue := zeroPadded v,
      result := (fn s (zeroPadded k) (zeroPadded v)).1 } ::
      invocations fn (fn s (zeroPadded k) (zeroPadded v)).2 rest

/-- The closure state left by calling `fn` on the records of `L` one after the other,
from closure state `s` on. -/
def stateAfter {σ : Type} (fn : forEachFn σ) : σ → List Rec → σ
  | s, [] => s
  | s, (k, v) :: rest => stateAfter fn (fn s (zeroPadded k) (zeroPadded v)).2 rest

/-- A callback that counts its invocations in its closure state and always returns
success. -/
def fnCount : forEachFn Nat := fun n _ _ => (none, n + 1)

/-- A callback that counts its invocations in its closure state and always returns
`ErrPaginationExlucde`. -/
def fnCountExclude : forEachFn Nat :=
  fun n _ _ => (some GoError.ErrPaginationExlucde, n + 1)

/-- A callback that counts its invocations in its closure state and fails on the third
one, with an error that carries the key it received. -/
def fnFailThird : forEachFn Nat :=
  fun n k _ => (if n = 2 then some (GoError.other k.sum) else none, n + 1)


/-! ## The cursor yields the traversal -/

theorem onRec_none (c : Cursor) : OnRec c none := by
  intro r h; cases h

theorem onRec_getElem (c : Cursor) (h : c.stack = true) : OnRec c c.recs[c.idx]? := by
  intro r hr; exact ⟨h, hr⟩

theorem next_spec (p : Pagination) (c : Cursor) (r : Rec) (h : OnRec c (some r)) :
    OnRec (p.next c).2 (p.next c).1 ∧
      ahead p c (some r) = r :: ahead p (p.next c).2 (p.next c).1 := by
  obtain ⟨hs, hr⟩ := h r rfl
  obtain ⟨hlt, hget⟩ := List.getElem?_eq_some.mp hr
  by_cases ho : p.Order = Asc
  · by_cases hn : c.idx + 1 < c.recs.length
    · have hg : c.recs[c.idx + 1]? = some (c.recs[c.idx + 1]) := List.getElem?_eq_getElem hn
      refine ⟨?_, ?_⟩
      · simp only [Pagination.next, ho, Cursor.Next, hs, hn, if_true, and_self]
        exact onRec_getElem _ rfl
      · simp only [Pagination.next, ho, Cursor.Next, hs, hn, if_true, and_self, ahead, hg]
        rw [List.drop_eq_getElem_cons hlt, hget]
    · refine ⟨?_, ?_⟩
      · simp only [Pagination.next, ho, Cursor.Next, hs, hn, if_true, and_false, if_false]
        exact onRec_none _
      · simp only [Pagination.next, ho, Cursor.Next, hs, hn, if_true, and_false, if_false, ahead]
        rw [List.drop_eq_getElem_cons hlt, hget, List.drop_of_length_le (by omega)]
  · by_cases hn : 0 < c.idx
    · have hlt1 : c.idx - 1 < c.recs.length := by omega
      have hg : c.recs[c.idx - 1]? = some (c.recs[c.idx - 1]) := List.getElem?_eq_getElem hlt1
      have hsucc : c.idx - 1 + 1 = c.idx := by omega
      refine ⟨?_, ?_⟩
      · simp only [Pagination.next, ho, Cursor.Prev, hs, hn, if_true, and_self, if_false]
        exact onRec_getElem _ rfl
      · simp only [Pagination.next, ho, Cursor.Prev, hs, hn, if_true, and_self, if_false, ahead,
          hg, hsucc]
        rw [List.take_succ, hr]; simp
    · have h0 : c.idx = 0 := by omega
      refine ⟨?_, ?_⟩
      · simp only [Pagination.next, ho, Cursor.Prev, hs, hn, if_true, and_false, if_false]
        exact onRec_none _
      · simp only [Pagination.next, ho, Cursor.Prev, hs, hn, if_true, and_false, if_false, ahead]
        rw [List.take_succ, hr, h0]; simp

theorem ahead_length_le (p : Pagination) (c : Cursor) (kv : Option Rec) :
    (ahead p c kv).length ≤ c.recs.length := by
  cases kv with
  | none => simp [ahead]
  | some r =>
    by_cases ho : p.Order = Asc
    · simp [ahead, ho]
    · simp [ahead, ho]

theorem next_recs (p : Pagination) (c : Cursor) : (p.next c).2.recs = c.recs := by
  unfold Pagination.next Cursor.Next Cursor.Prev
  split <;> split <;> rfl

theorem forEachLoop_eq_runList {σ : Type} (p : Pagination) (fn : forEachFn σ) :
    ∀ (fuel : Nat) (kv : Option Rec) (c : Cursor) (l : Nat) (s : σ), OnRec c kv →
      (ahead p c kv).length < fuel →
      forEachLoop p fn fuel kv c l s = some (runList p fn (ahead p c kv) l s) := by
  intro fuel
  induction fuel with
  | zero => intro kv c l s _ h; omega
  | succ n ih =>
    intro kv c l s hon hlen
    cases kv with
    | none => simp [forEachLoop, ahead, runList]
    | some r =>
      obtain ⟨k, v⟩ := r
      obtain ⟨hon2, hah⟩ := next_spec p c (k, v) hon
      rw [hah] at hlen ⊢
      have hlen2 : (ahead p (p.next c).2 (p.next c).1).length < n := by
        simpa using hlen
      simp only [forEachLoop, runList]
      split
      · split
        · rw [ih _ _ _ _ hon2 hlen2]; rfl
        · split
          · rfl
          · rw [ih _ _ _ _ hon2 hlen2]; rfl
      · rfl

theorem next_onRec (p : Pagination) (c : Cursor) : OnRec (p.next c).2 (p.next c).1 := by
  unfold Pagination.next Cursor.Next Cursor.Prev
  split
  · split
    · rename_i h; exact onRec_getElem _ h.1
    · exact onRec_none _
  · split
    · rename_i h; exact onRec_getElem _ h.1
    · exact onRec_none _

theorem seek_recs (c : Cursor) (key : Bytes) : (c.Seek key).2.recs = c.recs := by
  unfold Cursor.Seek
  dsimp only
  split
  · exact next_recs { Order := Asc, key := none, LastKey := none, Limit := 0, ExcludeFirst := true } _
  · rfl

theorem seek_onRec (c : Cursor) (key : Bytes) : OnRec (c.Seek key).2 (c.Seek key).1 := by
  unfold Cursor.Seek
  dsimp only
  split
  · exact next_onRec { Order := Asc, key := none, LastKey := none, Limit := 0, ExcludeFirst := true } _
  · exact onRec_getElem _ rfl

theorem seekToFirst_recs (p : Pagination) (c : Cursor) : (p.seekToFirst c).2.recs = c.recs := by
  unfold Pagination.seekToFirst
  split
  · split <;> rfl
  · split
    · rw [next_recs, seek_recs]
    · exact seek_recs _ _

theorem seekToFirst_onRec (p : Pagination) (c : Cursor) :
    OnRec (p.seekToFirst c).2 (p.seekToFirst c).1 := by
  unfold Pagination.seekToFirst
  split
  · split
    · exact onRec_getElem _ rfl
    · exact onRec_getElem _ rfl
  · split
    · exact next_onRec _ _
    · exact seek_onRec _ _

theorem traversal_length_le (p : Pagination) (c : Cursor) :
    (p.traversal c).length ≤ c.recs.length := by
  unfold Pagination.traversal
  exact (ahead_length_le _ _ _).trans (le_of_eq (congrArg List.length (seekToFirst_recs p c)))

/-- Every run of `ForEach` returns, and it is the run of the loop over the traversal. -/
theorem ForEach_eq_runList {σ : Type} (p : Pagination) (c : Cursor) (fn : forEachFn σ) (s : σ) :
    p.ForEach c fn s = some (runList p fn (p.traversal c) 0 s) := by
  unfold Pagination.ForEach
  exact forEachLoop_eq_runList p fn _ _ _ 0 s (seekToFirst_onRec p c)
    (Nat.lt_succ_of_le (traversal_length_le p c))

/-- The result of a run of `ForEach`, which always returns. -/
theorem ForEach_returns {σ : Type} (p : Pagination) (c : Cursor) (fn : forEachFn σ) (s : σ) :
    ∃ r, p.ForEach c fn s = some r :=
  ⟨_, ForEach_eq_runList p c fn s⟩

theorem traversal_no_anchor (p : Pagination) (c : Cursor) (hk : p.key = none) :
    p.traversal c = if p.Order = Asc then c.recs else c.recs.reverse := by
  unfold Pagination.traversal Pagination.seekToFirst
  rw [hk]
  by_cases ho : p.Order = Asc
  · simp only [ho, if_true, Cursor.First]
    cases hr : c.recs with
    | nil => simp [ahead]
    | cons a t => simp [ahead, ho]
  · simp only [ho, if_false, Cursor.Last]
    cases hr : c.recs with
    | nil => simp [ahead]
    | cons a t =>
      have : (a :: t)[t.length]? = some ((a :: t)[t.length]) := List.getElem?_eq_getElem (by simp)
      simp [ahead, ho, this]

/-! ## The loop over a list, case by case -/

theorem runList_cons_cases {σ : Type} (p : Pagination) (fn : forEachFn σ) (k v : Bytes)
    (rest : List Rec) (l : Nat) (s : σ) :
    (¬ (l : Int) < p.Limit ∧ runList p fn ((k, v) :: rest) l s =
        { err := none, p := { p with LastKey := some k }, calls := [], state := s }) ∨
    ((l : Int) < p.Limit ∧ (fn s (copyArg k) (copyArg v)).1 = none ∧
      runList p fn ((k, v) :: rest) l s =
        (runList p fn rest (l + 1) (fn s (copyArg k) (copyArg v)).2).push (callOn fn s k v)) ∨
    ((l : Int) < p.Limit ∧ (∃ e, (fn s (copyArg k) (copyArg v)).1 = some e ∧
      e ≠ GoError.ErrPaginationExlucde ∧ runList p fn ((k, v) :: rest) l s =
        { err := some e, p := p, calls := [callOn fn s k v],
          state := (fn s (copyArg k) (copyArg v)).2 })) ∨
    ((l : Int) < p.Limit ∧
      (fn s (copyArg k) (copyArg v)).1 = some GoError.ErrPaginationExlucde ∧
      runList p fn ((k, v) :: rest) l s =
        (runList p fn rest l (fn s (copyArg k) (copyArg v)).2).push (callOn fn s k v)) := by
  by_cases hl : (l : Int) < p.Limit
  · cases hout : (fn s (copyArg k) (copyArg v)).1 with
    | none =>
      right; left
      refine ⟨hl, rfl, ?_⟩
      simp only [runList, hl, if_true, callOn]
      split
      · rfl
      · rename_i e he; rw [hout] at he; cases he
    | some e =>
      by_cases he : e = GoError.ErrPaginationExlucde
      · right; right; right
        refine ⟨hl, by rw [he], ?_⟩
        simp only [runList, hl, if_true, callOn]
        split
        · rename_i h; rw [hout] at h; cases h
        · rename_i e2 he2
          rw [hout] at he2
          cases he2
          simp [he]
      · right; right; left
        refine ⟨hl, e, rfl, he, ?_⟩
        simp only [runList, hl, if_true, callOn]
        split
        · rename_i h; rw [hout] at h; cases h
        · rename_i e2 he2
          rw [hout] at he2
          cases he2
          simp [he]
  · left
    exact ⟨hl, by simp only [runList, hl, if_false]⟩

@[simp]
theorem push_err {σ : Type} (c : Call) (r : Run σ) : (r.push c).err = r.err := rfl
@[simp]
theorem push_p {σ : Type} (c : Call) (r : Run σ) : (r.push c).p = r.p := rfl
@[simp]
theorem push_calls {σ : Type} (c : Call) (r : Run σ) :
    (r.push c).calls = c :: r.calls := rfl
@[simp]
theorem push_visited {σ : Type} (c : Call) (r : Run σ) :
    (r.push c).visited = c.record :: r.visited := rfl
@[simp]
theorem callOn_record {σ : Type} (fn : forEachFn σ) (s : σ) (k v : Bytes) :
    (callOn fn s k v).record = (k, v) := rfl
@[simp]
theorem callOn_result {σ : Type} (fn : forEachFn σ) (s : σ) (k v : Bytes) :
    (callOn fn s k v).result = (fn s (copyArg k) (copyArg v)).1 := rfl

theorem acceptedIn_cons (c : Call) (cs : List Call) :
    acceptedIn (c :: cs) = (if c.result.isNone then 1 else 0) + acceptedIn cs := by
  unfold acceptedIn
  simp only [List.filter_cons]
  split <;> simp [Nat.add_comm]

theorem push_accepted {σ : Type} (c : Call) (r : Run σ) :
    (r.push c).accepted = (if c.result.isNone then 1 else 0) + r.accepted :=
  acceptedIn_cons c r.calls

theorem visited_length {σ : Type} (r : Run σ) : r.visited.length = r.calls.length := by
  simp [Run.visited]

/-! ## A callback that always returns success -/

theorem runList_success {σ : Type} (p : Pagination) (fn : forEachFn σ)
    (hfn : ∀ s k v, (fn s k v).1 = none) :
    ∀ (L : List Rec) (l : Nat) (s : σ),
      (runList p fn L l s).err = none ∧
      (runList p fn L l s).visited = L.take (p.Limit.toNat - l) ∧
      (∀ call ∈ (runList p fn L l s).calls, call.result = none) := by
  intro L
  induction L with
  | nil => intro l s; simp [runList, Run.visited]
  | cons a rest ih =>
    intro l s
    obtain ⟨k, v⟩ := a
    rcases runList_cons_cases p fn k v rest l s with
      ⟨hl, h⟩ | ⟨hl, _, h⟩ | ⟨_, e, he, _, _⟩ | ⟨_, he, _⟩
    · have h0 : p.Limit.toNat - l = 0 := by omega
      rw [h, h0]; simp [Run.visited]
    · obtain ⟨ih1, ih2, ih3⟩ := ih (l + 1) (fn s (copyArg k) (copyArg v)).2
      have h1 : p.Limit.toNat - l = (p.Limit.toNat - (l + 1)) + 1 := by omega
      rw [h, h1]
      refine ⟨by simpa using ih1, by simp [ih2], ?_⟩
      intro call hc
      simp only [push_calls, List.mem_cons] at hc
      rcases hc with hc | hc
      · rw [hc]; simp [hfn]
      · exact ih3 call hc
    · rw [hfn] at he; cases he
    · rw [hfn] at he; cases he

/-! ## The accepted count and the limit -/

theorem runList_accepted_le {σ : Type} (p : Pagination) (fn : forEachFn σ) :
    ∀ (L : List Rec) (l : Nat) (s : σ), (l : Int) ≤ p.Limit →
      ((l + (runList p fn L l s).accepted : Nat) : Int) ≤ p.Limit := by
  intro L
  induction L with
  | nil => intro l s h; simpa [runList, Run.accepted, acceptedIn] using h
  | cons a rest ih =>
    intro l s hle
    obtain ⟨k, v⟩ := a
    rcases runList_cons_cases p fn k v rest l s with
      ⟨_, h⟩ | ⟨hl, hr, h⟩ | ⟨_, e, he, _, h⟩ | ⟨_, he, h⟩
    · rw [h]; simpa [Run.accepted, acceptedIn] using hle
    · have := ih (l + 1) (fn s (copyArg k) (copyArg v)).2 (by omega)
      rw [h, push_accepted]
      simp only [callOn_result, hr, Option.isNone_none, if_true]
      rw [show l + (1 + (runList p fn rest (l + 1) (fn s (copyArg k) (copyArg v)).2).accepted)
        = l + 1 + (runList p fn rest (l + 1) (fn s (copyArg k) (copyArg v)).2).accepted by omega]
      exact this
    · rw [h]
      simpa [Run.accepted, acceptedIn, callOn, he] using hle
    · have := ih l (fn s (copyArg k) (copyArg v)).2 hle
      rw [h, push_accepted]
      simpa [he] using this

theorem runList_call_below_limit {σ : Type} (p : Pagination) (fn : forEachFn σ) :
    ∀ (L : List Rec) (l : Nat) (s : σ) (pre : List Call) (call : Call) (post : List Call),
      (runList p fn L l s).calls = pre ++ call :: post →
      ((l + acceptedIn pre : Nat) : Int) < p.Limit := by
  intro L
  induction L with
  | nil => intro l s pre call post h; simp [runList] at h
  | cons a rest ih =>
    intro l s pre call post hc
    obtain ⟨k, v⟩ := a
    rcases runList_cons_cases p fn k v rest l s with
      ⟨_, h⟩ | ⟨hl, hr, h⟩ | ⟨hl, e, he, _, h⟩ | ⟨hl, he, h⟩
    · rw [h] at hc; simp at hc
    · rw [h, push_calls] at hc
      cases pre with
      | nil => simpa [acceptedIn] using hl
      | cons b pre2 =>
        simp only [List.cons_append, List.cons.injEq] at hc
        obtain ⟨hb, hc2⟩ := hc
        have := ih (l + 1) _ pre2 call post hc2
        rw [acceptedIn_cons, ← hb]
        simp only [callOn_result, hr, Option.isNone_none, if_true]
        rw [show l + (1 + acceptedIn pre2) = l + 1 + acceptedIn pre2 by omega]
        exact this
    · rw [h] at hc
      cases pre with
      | nil => simpa [acceptedIn] using hl
      | cons b pre2 => simp at hc
    · rw [h, push_calls] at hc
      cases pre with
      | nil => simpa [acceptedIn] using hl
      | cons b pre2 =>
        simp only [List.cons_append, List.cons.injEq] at hc
        obtain ⟨hb, hc2⟩ := hc
        have := ih l _ pre2 call post hc2
        rw [acceptedIn_cons, ← hb]
        simpa [he] using this

theorem runList_below_limit_exhausts {σ : Type} (p : Pagination) (fn : forEachFn σ) :
    ∀ (L : List Rec) (l : Nat) (s : σ), (runList p fn L l s).err = none →
      ((l + (runList p fn L l s).accepted : Nat) : Int) < p.Limit →
      (runList p fn L l s).visited = L ∧ (runList p fn L l s).p.LastKey = none := by
  intro L
  induction L with
  | nil => intro l s _ _; simp [runList, Run.visited]
  | cons a rest ih =>
    intro l s herr hlt
    obtain ⟨k, v⟩ := a
    rcases runList_cons_cases p fn k v rest l s with
      ⟨hl, h⟩ | ⟨hl, hr, h⟩ | ⟨hl, e, he, _, h⟩ | ⟨hl, he, h⟩
    · rw [h] at hlt
      simp only [Run.accepted, acceptedIn, List.filter_nil, List.length_nil, Nat.add_zero] at hlt
      exact absurd hlt hl
    · rw [h] at herr hlt ⊢
      rw [push_accepted] at hlt
      simp only [callOn_result, hr, Option.isNone_none, if_true] at hlt
      have := ih (l + 1) _ (by simpa using herr) (by
        rw [show l + 1 + (runList p fn rest (l + 1) (fn s (copyArg k) (copyArg v)).2).accepted
          = l + (1 + (runList p fn rest (l + 1) (fn s (copyArg k) (copyArg v)).2).accepted)
          by omega]
        exact hlt)
      simp [this.1, this.2]
    · rw [h] at herr; simp at herr
    · rw [h] at herr hlt ⊢
      rw [push_accepted] at hlt
      simp only [callOn_result, he] at hlt
      have := ih l _ (by simpa using herr) (by simpa using hlt)
      simp [this.1, this.2]

/-! ## Failures of the callback -/

theorem runList_err_iff {σ : Type} (p : Pagination) (fn : forEachFn σ) :
    ∀ (L : List Rec) (l : Nat) (s : σ),
      ((runList p fn L l s).err ≠ none ↔
        ∃ call ∈ (runList p fn L l s).calls, Failure call.result) := by
  intro L
  induction L with
  | nil => intro l s; simp [runList]
  | cons a rest ih =>
    intro l s
    obtain ⟨k, v⟩ := a
    rcases runList_cons_cases p fn k v rest l s with
      ⟨_, h⟩ | ⟨hl, hr, h⟩ | ⟨hl, e, he, hne, h⟩ | ⟨hl, he, h⟩
    · rw [h]; simp
    · rw [h, push_err, push_calls, ih]
      simp [Failure, hr]
    · rw [h]
      simp [Failure, he, hne]
    · rw [h, push_err, push_calls, ih]
      simp [Failure, he]

theorem runList_failure_is_last {σ : Type} (p : Pagination) (fn : forEachFn σ) :
    ∀ (L : List Rec) (l : Nat) (s : σ) (pre : List Call) (call : Call) (post : List Call),
      (runList p fn L l s).calls = pre ++ call :: post → Failure call.result →
      post = [] ∧ (runList p fn L l s).err = call.result := by
  intro L
  induction L with
  | nil => intro l s pre call post h; simp [runList] at h
  | cons a rest ih =>
    intro l s pre call post hc hf
    obtain ⟨k, v⟩ := a
    rcases runList_cons_cases p fn k v rest l s with
      ⟨_, h⟩ | ⟨hl, hr, h⟩ | ⟨hl, e, he, _, h⟩ | ⟨hl, he, h⟩
    · rw [h] at hc; simp at hc
    · rw [h, push_calls] at hc
      rw [h, push_err]
      cases pre with
      | nil =>
        simp only [List.nil_append, List.cons.injEq] at hc
        rw [← hc.1] at hf
        simp [Failure, hr] at hf
      | cons b pre2 =>
        simp only [List.cons_append, List.cons.injEq] at hc
        exact ih (l + 1) _ pre2 call post hc.2 hf
    · rw [h] at hc ⊢
      cases pre with
      | nil =>
        simp only [List.nil_append, List.cons.injEq] at hc
        refine ⟨hc.2.symm, ?_⟩
        rw [← hc.1]; simp [he]
      | cons b pre2 => simp at hc
    · rw [h, push_calls] at hc
      rw [h, push_err]
      cases pre with
      | nil =>
        simp only [List.nil_append, List.cons.injEq] at hc
        rw [← hc.1] at hf
        simp [Failure, he] at hf
      | cons b pre2 =>
        simp only [List.cons_append, List.cons.injEq] at hc
        exact ih l _ pre2 call post hc.2 hf

theorem runList_err_ne_exclude {σ : Type} (p : Pagination) (fn : forEachFn σ) :
    ∀ (L : List Rec) (l : Nat) (s : σ),
      (runList p fn L l s).err ≠ some GoError.ErrPaginationExlucde := by
  intro L
  induction L with
  | nil => intro l s; simp [runList]
  | cons a rest ih =>
    intro l s
    obtain ⟨k, v⟩ := a
    rcases runList_cons_cases p fn k v rest l s with
      ⟨_, h⟩ | ⟨hl, hr, h⟩ | ⟨hl, e, he, hne, h⟩ | ⟨hl, he, h⟩
    · rw [h]; simp
    · rw [h, push_err]; exact ih _ _
    · rw [h]; simpa using hne
    · rw [h, push_err]; exact ih _ _

theorem runList_err_keeps_p {σ : Type} (p : Pagination) (fn : forEachFn σ) :
    ∀ (L : List Rec) (l : Nat) (s : σ),
      (runList p fn L l s).err ≠ none → (runList p fn L l s).p = p := by
  intro L
  induction L with
  | nil => intro l s h; simp [runList] at h
  | cons a rest ih =>
    intro l s herr
    obtain ⟨k, v⟩ := a
    rcases runList_cons_cases p fn k v rest l s with
      ⟨_, h⟩ | ⟨hl, hr, h⟩ | ⟨hl, e, he, hne, h⟩ | ⟨hl, he, h⟩
    · rw [h] at herr; simp at herr
    · rw [h, push_err] at herr
      rw [h, push_p]; exact ih _ _ herr
    · rw [h]
    · rw [h, push_err] at herr
      rw [h, push_p]; exact ih _ _ herr

/-! ## The visited records and the final key -/

theorem runList_visited_take {σ : Type} (p : Pagination) (fn : forEachFn σ) :
    ∀ (L : List Rec) (l : Nat) (s : σ),
      (runList p fn L l s).visited = L.take (runList p fn L l s).calls.length := by
  intro L
  induction L with
  | nil => intro l s; simp [runList, Run.visited]
  | cons a rest ih =>
    intro l s
    obtain ⟨k, v⟩ := a
    rcases runList_cons_cases p fn k v rest l s with
      ⟨_, h⟩ | ⟨hl, hr, h⟩ | ⟨hl, e, he, hne, h⟩ | ⟨hl, he, h⟩
    · rw [h]; simp [Run.visited]
    · rw [h, push_visited, push_calls, ih]; simp
    · rw [h]; simp [Run.visited, Call.record, callOn]
    · rw [h, push_visited, push_calls, ih]; simp

theorem runList_exclude {σ : Type} (p : Pagination) (fn : forEachFn σ)
    (hfn : ∀ s k v, (fn s k v).1 = some GoError.ErrPaginationExlucde) (l : Nat)
    (hl : (l : Int) < p.Limit) :
    ∀ (L : List Rec) (s : σ),
      (runList p fn L l s).visited = L ∧ (runList p fn L l s).accepted = 0 ∧
      (runList p fn L l s).err = none ∧ (runList p fn L l s).p.LastKey = none := by
  intro L
  induction L with
  | nil => intro s; simp [runList, Run.visited, Run.accepted, acceptedIn]
  | cons a rest ih =>
    intro s
    obtain ⟨k, v⟩ := a
    rcases runList_cons_cases p fn k v rest l s with
      ⟨hl2, _⟩ | ⟨_, hr, _⟩ | ⟨_, e, he, hne, _⟩ | ⟨_, he, h⟩
    · exact absurd hl hl2
    · rw [hfn] at hr; cases hr
    · rw [hfn] at he; cases he; exact absurd rfl hne
    · obtain ⟨h1, h2, h3, h4⟩ := ih (fn s (copyArg k) (copyArg v)).2
      rw [h, push_visited, push_accepted, push_err, push_p]
      simp [h1, h2, h3, h4, he]

/-! ## The start position -/

theorem ahead_head (p : Pagination) (c : Cursor) (kv : Option Rec) (h : OnRec c kv) :
    (ahead p c kv).head? = kv := by
  cases kv with
  | none => rfl
  | some r => rw [(next_spec p c r h).2]; rfl

theorem traversal_head (p : Pagination) (c : Cursor) :
    (p.traversal c).head? = (p.seekToFirst c).1 :=
  ahead_head p _ _ (seekToFirst_onRec p c)

theorem first_congr (c c2 : Cursor) (h : c.recs = c2.recs) : c.First = c2.First := by
  obtain ⟨recs, i, st⟩ := c
  obtain ⟨recs2, i2, st2⟩ := c2
  cases h
  rfl

theorem last_congr (c c2 : Cursor) (h : c.recs = c2.recs) : c.Last = c2.Last := by
  obtain ⟨recs, i, st⟩ := c
  obtain ⟨recs2, i2, st2⟩ := c2
  cases h
  rfl

theorem seek_congr (c c2 : Cursor) (key : Bytes) (h : c.recs = c2.recs) :
    c.Seek key = c2.Seek key := by
  obtain ⟨recs, i, st⟩ := c
  obtain ⟨recs2, i2, st2⟩ := c2
  cases h
  rfl

theorem seekToFirst_congr (p p2 : Pagination) (c c2 : Cursor) (hk : p.key = p2.key)
    (he : p.ExcludeFirst = p2.ExcludeFirst) (ho : p.Order = p2.Order)
    (hc : c.recs = c2.recs) : p.seekToFirst c = p2.seekToFirst c2 := by
  unfold Pagination.seekToFirst Pagination.next
  rw [← hk, ← he, ← ho, first_congr c c2 hc, last_congr c c2 hc]
  cases p.key with
  | none => rfl
  | some key => simp only [seek_congr c c2 key hc]

theorem traversal_congr (p p2 : Pagination) (c c2 : Cursor) (hk : p.key = p2.key)
    (he : p.ExcludeFirst = p2.ExcludeFirst) (ho : p.Order = p2.Order)
    (hc : c.recs = c2.recs) : p.traversal c = p2.traversal c2 := by
  unfold Pagination.traversal
  rw [seekToFirst_congr p p2 c c2 hk he ho hc]
  cases (p2.seekToFirst c2).1 with
  | none => rfl
  | some r => simp only [ahead, ho]

/-! ## What the loop reads and writes of the Pagination -/

theorem runList_limit_nonpos {σ : Type} (p : Pagination) (fn : forEachFn σ)
    (h : p.Limit ≤ 0) (L : List Rec) (l : Nat) (s : σ) :
    runList p fn L l s =
      { err := none, p := { p with LastKey := L.head?.map Prod.fst }, calls := [],
        state := s } := by
  have hl : ¬ (l : Int) < p.Limit := by omega
  cases L with
  | nil => simp [runList]
  | cons a rest =>
    obtain ⟨k, v⟩ := a
    simp [runList, hl]

theorem runList_frame {σ : Type} (p : Pagination) (fn : forEachFn σ) :
    ∀ (L : List Rec) (l : Nat) (s : σ),
      (runList p fn L l s).p.key = p.key ∧ (runList p fn L l s).p.Limit = p.Limit ∧
      (runList p fn L l s).p.ExcludeFirst = p.ExcludeFirst ∧
      (runList p fn L l s).p.Order = p.Order := by
  intro L
  induction L with
  | nil => intro l s; simp [runList]
  | cons a rest ih =>
    intro l s
    obtain ⟨k, v⟩ := a
    rcases runList_cons_cases p fn k v rest l s with
      ⟨_, h⟩ | ⟨_, _, h⟩ | ⟨_, e, _, _, h⟩ | ⟨_, _, h⟩
    · rw [h]; simp
    · rw [h, push_p]; exact ih _ _
    · rw [h]; simp
    · rw [h, push_p]; exact ih _ _

theorem runList_congr {σ : Type} (p p2 : Pagination) (fn : forEachFn σ)
    (hL : p.Limit = p2.Limit) :
    ∀ (L : List Rec) (l : Nat) (s : σ),
      (runList p fn L l s).calls = (runList p2 fn L l s).calls ∧
      (runList p fn L l s).err = (runList p2 fn L l s).err ∧
      (runList p fn L l s).state = (runList p2 fn L l s).state ∧
      ((runList p fn L l s).err = none →
        (runList p fn L l s).p.LastKey = (runList p2 fn L l s).p.LastKey) := by
  intro L
  induction L with
  | nil => intro l s; simp [runList]
  | cons a rest ih =>
    intro l s
    obtain ⟨k, v⟩ := a
    rcases runList_cons_cases p fn k v rest l s with
      ⟨hl, h⟩ | ⟨hl, hr, h⟩ | ⟨hl, e, he, hne, h⟩ | ⟨hl, he, h⟩ <;>
    rcases runList_cons_cases p2 fn k v rest l s with
      ⟨hl2, h2⟩ | ⟨hl2, hr2, h2⟩ | ⟨hl2, e2, he2, hne2, h2⟩ | ⟨hl2, he2, h2⟩ <;>
    first
      | (rw [hL] at hl; exact absurd hl2 hl)
      | (rw [hL] at hl; exact absurd hl hl2)
      | (rw [hr] at he2; cases he2)
      | (rw [hr2] at he; cases he)
      | (rw [he] at he2; cases he2; exact absurd rfl hne2)
      | (rw [he2] at he; cases he; exact absurd rfl hne)
      | (rw [h, h2]; simp; done)
      | (rw [h, h2]
         simp only [push_calls, push_err, push_p, Run.push]
         obtain ⟨i1, i2, i3, i4⟩ := ih (l + 1) (fn s (copyArg k) (copyArg v)).2
         exact ⟨by rw [i1], i2, i3, i4⟩)
      | (rw [h, h2]
         simp only [push_calls, push_err, push_p, Run.push]
         obtain ⟨i1, i2, i3, i4⟩ := ih l (fn s (copyArg k) (copyArg v)).2
         exact ⟨by rw [i1], i2, i3, i4⟩)
      | (rw [h, h2]
         rw [he] at he2
         cases he2
         simp)

/-! ## The key order -/

theorem bytesCompare_self : ∀ a : Bytes, bytesCompare a a = Ordering.eq
  | [] => rfl
  | x :: xs => by simp [bytesCompare, bytesCompare_self xs]

theorem keyLt_irrefl (a : Bytes) : ¬ keyLt a a := by
  unfold keyLt
  rw [bytesCompare_self]
  simp

theorem sorted_nodup (L : List Rec) (h : L.Pairwise (fun a b => keyLt a.1 b.1)) :
    L.Nodup := by
  unfold List.Nodup
  refine h.imp ?_
  intro a b hab heq
  rw [heq] at hab
  exact keyLt_irrefl _ hab

/-! ## The traversal inside the range -/

theorem ahead_sublist (p : Pagination) (c : Cursor) (kv : Option Rec) :
    (ahead p c kv).Sublist (if p.Order = Asc then c.recs else c.recs.reverse) := by
  cases kv with
  | none => simp [ahead]
  | some r =>
    by_cases ho : p.Order = Asc
    · simp only [ahead, ho, if_true]
      exact List.drop_sublist _ _
    · simp only [ahead, ho, if_false]
      exact (List.take_sublist _ _).reverse

theorem traversal_sublist (p : Pagination) (c : Cursor) :
    (p.traversal c).Sublist (if p.Order = Asc then c.recs else c.recs.reverse) := by
  have := ahead_sublist p (p.seekToFirst c).2 (p.seekToFirst c).1
  rw [seekToFirst_recs] at this
  exact this

theorem runList_visited_sublist {σ : Type} (p : Pagination) (fn : forEachFn σ)
    (L : List Rec) (l : Nat) (s : σ) : (runList p fn L l s).visited.Sublist L := by
  rw [runList_visited_take]
  exact List.take_sublist _ _

theorem copyArg_eq_zeroPadded (k : Bytes) : copyArg k = zeroPadded k := rfl

@[simp]
theorem push_state {σ : Type} (c : Call) (r : Run σ) : (r.push c).state = r.state := rfl

theorem callOn_eq {σ : Type} (fn : forEachFn σ) (s : σ) (k v : Bytes) :
    callOn fn s k v =
      { key := k, value := v, argKey := zeroPadded k, argValue := zeroPadded v,
        result := (fn s (zeroPadded k) (zeroPadded v)).1 } := rfl

theorem runList_calls_eq_invocations {σ : Type} (p : Pagination) (fn : forEachFn σ) :
    ∀ (L : List Rec) (l : Nat) (s : σ),
      (runList p fn L l s).calls = invocations fn s (runList p fn L l s).visited ∧
      (runList p fn L l s).state = stateAfter fn s (runList p fn L l s).visited := by
  intro L
  induction L with
  | nil => intro l s; simp [runList, Run.visited, invocations, stateAfter]
  | cons a rest ih =>
    intro l s
    obtain ⟨k, v⟩ := a
    rcases runList_cons_cases p fn k v rest l s with
      ⟨_, h⟩ | ⟨_, _, h⟩ | ⟨_, e, _, _, h⟩ | ⟨_, _, h⟩
    · rw [h]; simp [Run.visited, invocations, stateAfter]
    · obtain ⟨i1, i2⟩ := ih (l + 1) (fn s (copyArg k) (copyArg v)).2
      rw [h, push_calls, push_visited, push_state, callOn_record]
      simp only [invocations, stateAfter]
      exact ⟨congrArg (List.cons (callOn fn s k v)) i1, i2⟩
    · rw [h]
      exact ⟨rfl, rfl⟩
    · obtain ⟨i1, i2⟩ := ih l (fn s (copyArg k) (copyArg v)).2
      rw [h, push_calls, push_visited, push_state, callOn_record]
      simp only [invocations, stateAfter]
      exact ⟨congrArg (List.cons (callOn fn s k v)) i1, i2⟩

/-! ## Claims -/

/-- C1 (code at the failing input): on keys a to e with `N = 2` and `Asc`, page 1 and the
page built by `NextPage` visit a, b and then d, e, while a single page of `2N` visits
a, b, c, d: the record c is never visited by the two pages. On a range of one record
with `N = 1` the two pages visit that record twice. -/
theorem C1_resumption_skips_a_record :
    twoPages abcde 2 Asc fnSuccess () =
        some [([97], [1]), ([98], [2]), ([100], [4]), ([101], [5])] ∧
      singlePage abcde 2 Asc fnSuccess () =
        some [([97], [1]), ([98], [2]), ([99], [3]), ([100], [4])] ∧
      twoPages abcde 2 Asc fnSuccess () ≠ singlePage abcde 2 Asc fnSuccess () ∧
      twoPages [([97], [1])] 1 Asc fnSuccess () = some [([97], [1]), ([97], [1])] ∧
      singlePage [([97], [1])] 1 Asc fnSuccess () = some [([97], [1])] := by
  decide

/-- C2 (code at the failing input): on the record with key a and value 1 the callback
receives a zero byte followed by the key, and a zero byte followed by the value. -/
theorem C2_callback_receives_zero_padded_copies :
    ((NewPagination none 1 Asc).ForEach (Cursor.fresh [([97], [1])]) fnSuccess ()).map
        Run.calls =
      some [{ key := [97], value := [1], argKey := [0, 97], argValue := [0, 1],
              result := none }] := by
  decide

/-- C3: on a range with at least `N` records, a first page (no anchor) with `Limit = N`
and a callback that always returns success makes exactly `N` invocations, all accepted:
on the first `N` records in strictly ascending key order for `Asc`, and on the last `N`
records in strictly descending key order for `Desc`. The invocations are those of the
callback itself on these records, one after the other: each receives the zero-padded key
and value of its record and the closure state left by the one before, and the closure
state after the run is the one left by the last of them. -/
theorem C3_first_page_visits_N {σ : Type} (c : Cursor) (fn : forEachFn σ) (s : σ) (N : Nat)
    (order : Order) (hfn : ∀ s k v, (fn s k v).1 = none) (hN : N ≤ c.recs.length)
    (hsorted : c.recs.Pairwise (fun a b => keyLt a.1 b.1)) :
    ∃ r, (NewPagination none N order).ForEach c fn s = some r ∧ r.err = none ∧
      r.calls.length = N ∧ r.accepted = N ∧
      r.calls = invocations fn s r.visited ∧ r.state = stateAfter fn s r.visited ∧
      (order = Asc → r.visited = c.recs.take N ∧
        r.visited.Pairwise (fun a b => keyLt a.1 b.1)) ∧
      (order = Desc → r.visited = (c.recs.drop (c.recs.length - N)).reverse ∧
        r.visited.Pairwise (fun a b => keyLt b.1 a.1)) := by
  refine ⟨_, ForEach_eq_runList _ c fn s, ?_⟩
  obtain ⟨h1, h2, h3⟩ := runList_success (NewPagination none N order) fn hfn
    ((NewPagination none N order).traversal c) 0 s
  have hlim : (NewPagination none N order).Limit.toNat - 0 = N := by
    simp [NewPagination]
  have htr := traversal_no_anchor (NewPagination none N order) c rfl
  rw [hlim] at h2
  have hlen : (runList (NewPagination none N order) fn
      ((NewPagination none N order).traversal c) 0 s).calls.length = N := by
    rw [← visited_length, h2, htr]
    split <;> simp [hN]
  refine ⟨h1, hlen, ?_, (runList_calls_eq_invocations _ fn _ 0 s).1,
    (runList_calls_eq_invocations _ fn _ 0 s).2, ?_, ?_⟩
  · unfold Run.accepted acceptedIn
    rw [List.filter_eq_self.mpr (fun call hc => by simp [h3 call hc]), hlen]
  · intro ho
    have ho2 : (NewPagination none N order).Order = Asc := ho
    rw [h2, htr, if_pos ho2]
    exact ⟨rfl, hsorted.sublist (List.take_sublist _ _)⟩
  · intro ho
    have ho2 : ¬ (NewPagination none N order).Order = Asc := by
      show ¬ order = Asc
      rw [ho]; decide
    rw [h2, htr, if_neg ho2, List.take_reverse]
    refine ⟨rfl, ?_⟩
    rw [List.pairwise_reverse]
    exact hsorted.sublist (List.drop_sublist _ _)

/-- C3 at keys a to e with `Limit` 2 and a callback that counts its invocations: `Desc`
visits e, then d, and the count goes from 0 to 2. -/
theorem C3_first_page_visits_N_witness :
    ∃ r, (NewPagination none 2 Desc).ForEach (Cursor.fresh abcde) fnCount 0 = some r ∧
      r.calls.length = 2 ∧ r.visited = [([101], [5]), ([100], [4])] ∧ r.state = 2 ∧
      r.calls.map Call.argKey = [[0, 101], [0, 100]] := by
  obtain ⟨r, h, _, hlen, _, hcalls, hstate, _, hdesc⟩ :=
    C3_first_page_visits_N (Cursor.fresh abcde) fnCount 0 2 Desc (fun _ _ _ => rfl)
      (by decide) (by decide)
  have hv : r.visited = [([101], [5]), ([100], [4])] := (hdesc rfl).1
  rw [hv] at hcalls hstate
  refine ⟨r, h, hlen, hv, hstate, ?_⟩
  rw [hcalls]
  rfl

/-- C4: with `Limit >= 0`, at most `Limit` invocations return success; every invocation
is made while fewer than `Limit` earlier invocations have returned success, whatever the
number of earlier invocations that returned `ErrPaginationExlucde`; a run that returns nil
with fewer than `Limit` accepted records has gone through the whole traversal; and the
number of invocations can exceed `Limit` (five invocations with `Limit` 1 when every
record is excluded). -/
theorem C4_limit_bounds_accepted {σ : Type} (p : Pagination) (c : Cursor) (fn : forEachFn σ)
    (s : σ) (hL : 0 ≤ p.Limit) :
    ∃ r, p.ForEach c fn s = some r ∧
      (r.accepted : Int) ≤ p.Limit ∧
      (∀ pre call post, r.calls = pre ++ call :: post → (acceptedIn pre : Int) < p.Limit) ∧
      (r.err = none → (r.accepted : Int) < p.Limit →
        r.visited = p.traversal c ∧ r.p.LastKey = none) ∧
      (∃ r2, (NewPagination none 1 Asc).ForEach (Cursor.fresh abcde) fnExclude () = some r2 ∧
        r2.accepted = 0 ∧ r2.calls.length = 5) := by
  refine ⟨_, ForEach_eq_runList p c fn s, ?_, ?_, ?_, ?_⟩
  · simpa using runList_accepted_le p fn (p.traversal c) 0 s (by simpa using hL)
  · intro pre call post h
    simpa using runList_call_below_limit p fn (p.traversal c) 0 s pre call post h
  · intro herr hlt
    exact runList_below_limit_exhausts p fn (p.traversal c) 0 s herr (by simpa using hlt)
  · exact ⟨_, ForEach_eq_runList _ _ _ _, by decide, by decide⟩

/-- C4 at keys a to e with `Limit` 2 and a callback that always succeeds. -/
theorem C4_limit_bounds_accepted_witness :
    ∃ r, (NewPagination none 2 Asc).ForEach (Cursor.fresh abcde) fnSuccess () = some r ∧
      (r.accepted : Int) ≤ 2 := by
  obtain ⟨r, h, h1, _⟩ :=
    C4_limit_bounds_accepted (NewPagination none 2 Asc) (Cursor.fresh abcde) fnSuccess ()
      (by decide)
  exact ⟨r, h, h1⟩

/-- C5: the invocations logged by a run of `ForEach` are those of the callback itself on
the visited records, one after the other, each in the closure state left by the one
before, and the closure state after the run is the one left by the last of them.
`ForEach` returns a non-nil error exactly when one of these invocations returns a failure
(neither nil nor `ErrPaginationExlucde`); the failing invocation is then the last one, so
the callback is not invoked on any further record, and `ForEach` returns the error the
callback returned, unchanged; `ErrPaginationExlucde` is never returned. -/
theorem C5_error_propagation {σ : Type} (p : Pagination) (c : Cursor) (fn : forEachFn σ)
    (s : σ) :
    ∃ r, p.ForEach c fn s = some r ∧
      r.calls = invocations fn s r.visited ∧ r.state = stateAfter fn s r.visited ∧
      (r.err ≠ none ↔ ∃ call ∈ r.calls, Failure call.result) ∧
      (∀ pre call post, r.calls = pre ++ call :: post → Failure call.result →
        post = [] ∧ r.err = call.result) ∧
      r.err ≠ some GoError.ErrPaginationExlucde :=
  ⟨_, ForEach_eq_runList p c fn s, (runList_calls_eq_invocations p fn _ 0 s).1,
    (runList_calls_eq_invocations p fn _ 0 s).2, runList_err_iff p fn _ 0 s,
    runList_failure_is_last p fn _ 0 s, runList_err_ne_exclude p fn _ 0 s⟩

/-- C5 at keys a to e, `Limit` 5, with a callback that counts its invocations and fails
on the third: `ForEach` returns the error of that invocation, made on the zero-padded key
c, after three invocations, and the count is 3. -/
theorem C5_error_propagation_witness :
    ∃ r, (NewPagination none 5 Asc).ForEach (Cursor.fresh abcde) fnFailThird 0 = some r ∧
      r.err = some (GoError.other 99) ∧ r.calls.length = 3 ∧ r.state = 3 := by
  obtain ⟨r, h, hcalls, hstate, _, hlast, _⟩ :=
    C5_error_propagation (NewPagination none 5 Asc) (Cursor.fresh abcde) fnFailThird 0
  have hev : ((NewPagination none 5 Asc).ForEach (Cursor.fresh abcde) fnFailThird 0).map
      Run.visited = some [([97], [1]), ([98], [2]), ([99], [3])] := by decide
  rw [h] at hev
  have hv : r.visited = [([97], [1]), ([98], [2]), ([99], [3])] := by simpa using hev
  rw [hv] at hcalls hstate
  have hc : r.calls = invocations fnFailThird 0 [([97], [1]), ([98], [2])] ++
      { key := [99], value := [3], argKey := [0, 99], argValue := [0, 3],
        result := some (GoError.other 99) } :: [] := by
    rw [hcalls]; rfl
  have hf : Failure (some (GoError.other 99)) := by decide
  refine ⟨r, h, (hlast _ _ _ hc hf).2, ?_, hstate⟩
  rw [hcalls]
  rfl

/-- C6 (the claim fails): with `LastKey` holding z before the call and a callback that
fails on the first record, of key a, `ForEach` returns the failure and `LastKey` still
holds z, not a. -/
theorem C6_abort_LastKey_is_not_failing_key :
    (pageZ.ForEach (Cursor.fresh abcde) fnFail ()).map Run.err =
        some (some (GoError.other 7)) ∧
      (pageZ.ForEach (Cursor.fresh abcde) fnFail ()).map Run.visited =
        some [([97], [1])] ∧
      (pageZ.ForEach (Cursor.fresh abcde) fnFail ()).map (fun r => r.p.LastKey) =
        some (some [122]) ∧
      (pageZ.ForEach (Cursor.fresh abcde) fnFail ()).map (fun r => r.p.LastKey) ≠
        some (some [97]) := by
  decide

/-- C6 (amended): when an invocation of the callback returns a failure and `ForEach`
aborts, `ForEach` returns without writing `LastKey`: the Pagination, and so `LastKey`, is
as it was before the call. -/
theorem C6_abort_keeps_LastKey {σ : Type} (p : Pagination) (c : Cursor) (fn : forEachFn σ)
    (s : σ) :
    ∃ r, p.ForEach c fn s = some r ∧
      (r.err ≠ none → r.p.LastKey = p.LastKey ∧ r.p = p) := by
  refine ⟨_, ForEach_eq_runList p c fn s, fun herr => ?_⟩
  have := runList_err_keeps_p p fn (p.traversal c) 0 s herr
  exact ⟨by rw [this], this⟩

/-- C6 (amended) at keys a to e, `LastKey` z before the call and a failing callback. -/
theorem C6_abort_keeps_LastKey_witness :
    ∃ r, pageZ.ForEach (Cursor.fresh abcde) fnFail () = some r ∧
      r.err = some (GoError.other 7) ∧ r.p.LastKey = some [122] := by
  obtain ⟨r, h, hk⟩ := C6_abort_keeps_LastKey pageZ (Cursor.fresh abcde) fnFail ()
  have hev : (pageZ.ForEach (Cursor.fresh abcde) fnFail ()).map Run.err =
      some (some (GoError.other 7)) := by decide
  rw [h] at hev
  have herr : r.err = some (GoError.other 7) := by simpa using hev
  exact ⟨r, h, herr, (hk (by rw [herr]; simp)).1⟩

/-- C7: without an anchor, with `Limit >= 1` and a callback that always returns
`ErrPaginationExlucde`, `ForEach` invokes the callback on every record of the range in
traversal order (the range for `Asc`, the range reversed otherwise), accepts none,
returns nil and leaves `LastKey` nil. The invocations are those of the callback itself
on these records, one after the other: each receives the zero-padded key and value of
its record and the closure state left by the one before, and the closure state after the
run is the one left by the last of them. -/
theorem C7_exclusion_visits_all {σ : Type} (p : Pagination) (c : Cursor) (fn : forEachFn σ)
    (s : σ) (hk : p.key = none) (hL : 1 ≤ p.Limit)
    (hfn : ∀ s k v, (fn s k v).1 = some GoError.ErrPaginationExlucde) :
    ∃ r, p.ForEach c fn s = some r ∧
      r.visited = (if p.Order = Asc then c.recs else c.recs.reverse) ∧
      r.accepted = 0 ∧ r.err = none ∧ r.p.LastKey = none ∧
      r.calls = invocations fn s (if p.Order = Asc then c.recs else c.recs.reverse) ∧
      r.state = stateAfter fn s (if p.Order = Asc then c.recs else c.recs.reverse) := by
  refine ⟨_, ForEach_eq_runList p c fn s, ?_⟩
  obtain ⟨h1, h2, h3, h4⟩ := runList_exclude p fn hfn 0 (by simpa using hL) (p.traversal c) s
  obtain ⟨h5, h6⟩ := runList_calls_eq_invocations p fn (p.traversal c) 0 s
  rw [h1] at h5 h6
  rw [← traversal_no_anchor p c hk]
  exact ⟨h1, h2, h3, h4, h5, h6⟩

/-- C7 at keys a to e, `Desc`, `Limit` 2, with a callback that counts its invocations:
all five records are visited, backwards, and the count goes from 0 to 5. -/
theorem C7_exclusion_visits_all_witness :
    ∃ r, (NewPagination none 2 Desc).ForEach (Cursor.fresh abcde) fnCountExclude 0 = some r ∧
      r.visited = [([101], [5]), ([100], [4]), ([99], [3]), ([98], [2]), ([97], [1])] ∧
      r.accepted = 0 ∧ r.err = none ∧ r.p.LastKey = none ∧ r.state = 5 ∧
      r.calls.map Call.argKey = [[0, 101], [0, 100], [0, 99], [0, 98], [0, 97]] := by
  obtain ⟨r, h, hv, ha, he, hk, hcalls, hstate⟩ :=
    C7_exclusion_visits_all (NewPagination none 2 Desc) (Cursor.fresh abcde) fnCountExclude 0
      rfl (by decide) (fun _ _ _ => rfl)
  refine ⟨r, h, hv, ha, he, hk, hstate, ?_⟩
  rw [hcalls]
  rfl

/-- C8 at keys a to e, no anchor, `Limit` 2, `Asc`: `LastKey` is c as well. -/
theorem C8_example_ascending :
    ((NewPagination none 2 Asc).ForEach (Cursor.fresh abcde) fnSuccess ()).map
      (fun r => r.p.LastKey) = some (some [99]) := by
  decide

/-- C9 (code at the failing input): on keys a to e, no anchor, `Limit` 2, `Asc`, the run
returns nil, the last record on which the callback was invoked has key b, and `LastKey`
is c. -/
theorem C9_LastKey_is_past_last_visited :
    ((NewPagination none 2 Asc).ForEach (Cursor.fresh abcde) fnSuccess ()).map Run.err =
        some none ∧
      ((NewPagination none 2 Asc).ForEach (Cursor.fresh abcde) fnSuccess ()).map
        (fun r => r.visited.getLast?.map Prod.fst) = some (some [98]) ∧
      ((NewPagination none 2 Asc).ForEach (Cursor.fresh abcde) fnSuccess ()).map
        (fun r => r.p.LastKey) = some (some [99]) := by
  decide

/-- C10: over an empty range, for every Pagination (any `Limit`, order, anchor,
`ExcludeFirst` and prior `LastKey`) and every callback, `ForEach` invokes the callback
zero times, returns nil and leaves `LastKey` nil. -/
theorem C10_empty_range {σ : Type} (p : Pagination) (c : Cursor) (fn : forEachFn σ) (s : σ)
    (hc : c.recs = []) :
    ∃ r, p.ForEach c fn s = some r ∧ r.calls = [] ∧ r.err = none ∧ r.p.LastKey = none := by
  refine ⟨_, ForEach_eq_runList p c fn s, ?_⟩
  have hlen := traversal_length_le p c
  rw [hc] at hlen
  have htr : p.traversal c = [] := List.length_eq_zero.mp (Nat.le_zero.mp hlen)
  rw [htr]
  simp [runList]

/-- C10 with an anchor, `Desc`, a prior `LastKey` and a callback that would fail. -/
theorem C10_empty_range_witness :
    ∃ r, ({ pageZ with key := some [99], Order := Desc }).ForEach (Cursor.fresh []) fnFail ()
        = some r ∧ r.calls = [] ∧ r.err = none ∧ r.p.LastKey = none :=
  C10_empty_range { pageZ with key := some [99], Order := Desc } (Cursor.fresh []) fnFail ()
    rfl

/-- C12: `NextPage(count, order)` returns a Pagination whose anchor key is `p.LastKey`,
whose `ExcludeFirst` is true whatever `p.ExcludeFirst`, whose `Limit` is `count`, whose
`Order` is `order` and whose `LastKey` is nil; when `p.LastKey` is nil the result has no
anchor and its traversal starts at the range boundary: `First` for `Asc`, `Last`
otherwise. -/
theorem C12_NextPage_postcondition (p : Pagination) (count : Int) (order : Order) :
    (p.NextPage count order).key = p.LastKey ∧
      (p.NextPage count order).ExcludeFirst = true ∧
      (p.NextPage count order).Limit = count ∧
      (p.NextPage count order).Order = order ∧
      (p.NextPage count order).LastKey = none ∧
      (p.LastKey = none → (p.NextPage count order).key = none ∧
        ∀ c : Cursor, (p.NextPage count order).seekToFirst c =
          if order = Asc then c.First else c.Last) := by
  refine ⟨rfl, rfl, rfl, rfl, rfl, fun h => ⟨h, fun c => ?_⟩⟩
  simp [Pagination.seekToFirst, Pagination.NextPage, h]

/-- C12 at a Pagination without `LastKey` and `ExcludeFirst` false: the continuation has
no anchor and starts a `Desc` traversal at the last record. -/
theorem C12_NextPage_postcondition_witness :
    ({ pageZ with LastKey := none, ExcludeFirst := false }.NextPage 3 Desc).key = none ∧
      (({ pageZ with LastKey := none, ExcludeFirst := false }.NextPage 3 Desc).seekToFirst
        (Cursor.fresh abcde)).1 = some ([101], [5]) := by
  obtain ⟨_, _, _, _, _, h⟩ :=
    C12_NextPage_postcondition { pageZ with LastKey := none, ExcludeFirst := false } 3 Desc
  obtain ⟨h1, h2⟩ := h rfl
  refine ⟨h1, ?_⟩
  rw [h2]
  rfl

/-- C13: `NewPagination(key, count, order)` returns a Pagination with anchor key `key`,
`Limit = count`, `Order = order`, `ExcludeFirst` true and `LastKey` nil; `LastKey` is
nil as well on every Pagination built by `NextPage`. -/
theorem C13_NewPagination_postcondition (key : Option Bytes) (count : Int) (order : Order)
    (q : Pagination) :
    (NewPagination key count order).key = key ∧
      (NewPagination key count order).Limit = count ∧
      (NewPagination key count order).Order = order ∧
      (NewPagination key count order).ExcludeFirst = true ∧
      (NewPagination key count order).LastKey = none ∧
      (q.NextPage count order).LastKey = none :=
  ⟨rfl, rfl, rfl, rfl, rfl, rfl⟩

/-- C16: whether `ForEach` returns nil or an error, the anchor key, `Limit`,
`ExcludeFirst` and `Order` of the Pagination are what they were before the call: the
Pagination after the call is the one before with at most `LastKey` written, and `Limit`
is never decremented. -/
theorem C16_frame {σ : Type} (p : Pagination) (c : Cursor) (fn : forEachFn σ) (s : σ) :
    ∃ r, p.ForEach c fn s = some r ∧ r.p.key = p.key ∧ r.p.Limit = p.Limit ∧
      r.p.ExcludeFirst = p.ExcludeFirst ∧ r.p.Order = p.Order ∧
      r.p = { p with LastKey := r.p.LastKey } := by
  refine ⟨_, ForEach_eq_runList p c fn s, ?_⟩
  obtain ⟨h1, h2, h3, h4⟩ := runList_frame p fn (p.traversal c) 0 s
  refine ⟨h1, h2, h3, h4, ?_⟩
  generalize (runList p fn (p.traversal c) 0 s).p = q at h1 h2 h3 h4
  obtain ⟨qk, ql, qn, qe, qo⟩ := q
  simp only at h1 h2 h3 h4
  subst h1 h2 h3 h4
  rfl

/-- C17: without an anchor key, the Pagination `p` and the one that differs from it only
in `ExcludeFirst` make the same invocations of the callback, return the same result,
leave the same closure state and end with the same `LastKey`. -/
theorem C17_ExcludeFirst_harmless_without_anchor {σ : Type} (p : Pagination) (b : Bool)
    (c : Cursor) (fn : forEachFn σ) (s : σ) (hk : p.key = none) :
    ∃ r1 r2, p.ForEach c fn s = some r1 ∧
      ({ p with ExcludeFirst := b }).ForEach c fn s = some r2 ∧
      r1.calls = r2.calls ∧ r1.err = r2.err ∧ r1.state = r2.state ∧
      r1.p.LastKey = r2.p.LastKey := by
  refine ⟨_, _, ForEach_eq_runList p c fn s, ForEach_eq_runList _ c fn s, ?_⟩
  have htr : ({ p with ExcludeFirst := b } : Pagination).traversal c = p.traversal c := by
    rw [traversal_no_anchor p c hk, traversal_no_anchor { p with ExcludeFirst := b } c hk]
  rw [htr]
  obtain ⟨h1, h2, h3, h4⟩ :=
    runList_congr p { p with ExcludeFirst := b } fn rfl (p.traversal c) 0 s
  refine ⟨h1, h2, h3, ?_⟩
  cases herr : (runList p fn (p.traversal c) 0 s).err with
  | none => exact h4 herr
  | some e =>
    have e1 := runList_err_keeps_p p fn (p.traversal c) 0 s (by rw [herr]; simp)
    have e2 := runList_err_keeps_p { p with ExcludeFirst := b } fn (p.traversal c) 0 s
      (by rw [← h2, herr]; simp)
    rw [e1, e2]

/-- C17 at keys a to e, `Desc`, `Limit` 2: with `ExcludeFirst` false the run ends with
`LastKey` c, as with `ExcludeFirst` true. -/
theorem C17_ExcludeFirst_harmless_without_anchor_witness :
    ∃ r1 r2, (NewPagination none 2 Desc).ForEach (Cursor.fresh abcde) fnSuccess () = some r1 ∧
      ({ NewPagination none 2 Desc with ExcludeFirst := false }).ForEach (Cursor.fresh abcde)
        fnSuccess () = some r2 ∧
      r1.calls = r2.calls ∧ r1.err = r2.err ∧ r1.p.LastKey = r2.p.LastKey := by
  obtain ⟨r1, r2, h1, h2, hc, he, _, hk⟩ :=
    C17_ExcludeFirst_harmless_without_anchor (NewPagination none 2 Desc) false
      (Cursor.fresh abcde) fnSuccess () rfl
  exact ⟨r1, r2, h1, h2, hc, he, hk⟩

/-- C18: on a finite range in strictly ascending key order, for every Pagination and
every callback, `ForEach` returns; the records on which the callback is invoked are
pairwise distinct, in strictly increasing key order for `Asc` and in strictly decreasing
key order otherwise (`Desc`), and there are at most as many as the range has records. -/
theorem C18_terminates_visits_at_most_once {σ : Type} (p : Pagination) (c : Cursor)
    (fn : forEachFn σ) (s : σ) (hsorted : c.recs.Pairwise (fun a b => keyLt a.1 b.1)) :
    ∃ r, p.ForEach c fn s = some r ∧ r.visited.Nodup ∧
      (p.Order = Asc → r.visited.Pairwise (fun a b => keyLt a.1 b.1)) ∧
      (p.Order ≠ Asc → r.visited.Pairwise (fun a b => keyLt b.1 a.1)) ∧
      r.calls.length ≤ c.recs.length := by
  refine ⟨_, ForEach_eq_runList p c fn s, ?_⟩
  have hsub := (runList_visited_sublist p fn (p.traversal c) 0 s).trans
    (traversal_sublist p c)
  have hasc : p.Order = Asc → (runList p fn (p.traversal c) 0 s).visited.Pairwise
      (fun a b => keyLt a.1 b.1) := by
    intro ho
    rw [if_pos ho] at hsub
    exact hsorted.sublist hsub
  have hdesc : p.Order ≠ Asc → (runList p fn (p.traversal c) 0 s).visited.Pairwise
      (fun a b => keyLt b.1 a.1) := by
    intro ho
    rw [if_neg ho] at hsub
    exact (List.pairwise_reverse.mpr hsorted).sublist hsub
  refine ⟨?_, hasc, hdesc, ?_⟩
  · by_cases ho : p.Order = Asc
    · exact sorted_nodup _ (hasc ho)
    · have hrev : (runList p fn (p.traversal c) 0 s).visited.reverse.Pairwise
          (fun a b => keyLt a.1 b.1) := List.pairwise_reverse.mpr (hdesc ho)
      exact List.nodup_reverse.mp (sorted_nodup _ hrev)
  · rw [← visited_length]
    have := hsub.length_le
    split at this
    · exact this
    · simpa using this

/-- C18 at keys a to e, `Desc`, `Limit` 1 and a callback that always returns
`ErrPaginationExlucde`: five invocations, in decreasing key order. -/
theorem C18_terminates_visits_at_most_once_witness :
    ∃ r, (NewPagination none 1 Desc).ForEach (Cursor.fresh abcde) fnExclude () = some r ∧
      r.visited.Nodup ∧ r.visited.Pairwise (fun a b => keyLt b.1 a.1) ∧
      r.calls.length ≤ 5 := by
  obtain ⟨r, h, h1, _, h2, h3⟩ :=
    C18_terminates_visits_at_most_once (NewPagination none 1 Desc) (Cursor.fresh abcde)
      fnExclude () (by decide)
  exact ⟨r, h, h1, h2 (by decide), h3⟩

/-- C19: with `Limit < 0`, `ForEach` invokes the callback zero times, returns nil and
sets `LastKey` to the key of the result of the positioning step `seekToFirst`; the run
with `Limit = 0` instead makes the same invocations (none), returns the same result and
ends with the same `LastKey`. -/
theorem C19_negative_limit_like_zero {σ : Type} (p : Pagination) (c : Cursor)
    (fn : forEachFn σ) (s : σ) (hL : p.Limit < 0) :
    ∃ r r0, p.ForEach c fn s = some r ∧ ({ p with Limit := 0 }).ForEach c fn s = some r0 ∧
      r.calls = [] ∧ r.err = none ∧
      r.p.LastKey = (p.seekToFirst c).1.map Prod.fst ∧
      r0.calls = r.calls ∧ r0.err = r.err ∧ r0.p.LastKey = r.p.LastKey := by
  refine ⟨_, _, ForEach_eq_runList p c fn s, ForEach_eq_runList _ c fn s, ?_⟩
  have htr : ({ p with Limit := 0 } : Pagination).traversal c = p.traversal c :=
    traversal_congr _ p c c rfl rfl rfl rfl
  rw [htr, runList_limit_nonpos p fn (le_of_lt hL),
    runList_limit_nonpos { p with Limit := 0 } fn (le_refl _), traversal_head]
  exact ⟨rfl, rfl, rfl, rfl, rfl, rfl⟩

/-- C19 at keys a to e, no anchor, `Asc`, `Limit` -3: no invocation, nil, `LastKey` a. -/
theorem C19_negative_limit_like_zero_witness :
    ∃ r, (NewPagination none (-3) Asc).ForEach (Cursor.fresh abcde) fnFail () = some r ∧
      r.calls = [] ∧ r.err = none ∧ r.p.LastKey = some [97] := by
  obtain ⟨r, _, h, _, hc, he, hk, _⟩ :=
    C19_negative_limit_like_zero (NewPagination none (-3) Asc) (Cursor.fresh abcde) fnFail ()
      (by decide)
  exact ⟨r, h, hc, he, hk⟩

/-- C20: the Pagination `p` and the one that differs from it only in `LastKey`, run over
the same range with the same callback from the same closure state, make the same
invocations and return the same result; so a second `ForEach` on the Pagination left by
the first run (fresh cursor, same range) makes the invocations of the first run again
instead of moving on to the next page. -/
theorem C20_ForEach_ignores_LastKey {σ : Type} (p : Pagination) (k : Option Bytes)
    (c c2 : Cursor) (fn : forEachFn σ) (s : σ) (hc : c2.recs = c.recs) :
    ∃ r1 r2 r3, p.ForEach c fn s = some r1 ∧
      ({ p with LastKey := k }).ForEach c2 fn s = some r2 ∧
      r2.calls = r1.calls ∧ r2.err = r1.err ∧ r2.state = r1.state ∧
      r1.p.ForEach c2 fn s = some r3 ∧ r3.calls = r1.calls ∧ r3.err = r1.err := by
  refine ⟨_, _, _, ForEach_eq_runList p c fn s, ForEach_eq_runList _ c2 fn s,
    ?_, ?_, ?_, ForEach_eq_runList _ c2 fn s, ?_, ?_⟩
  · rw [traversal_congr { p with LastKey := k } p c2 c rfl rfl rfl hc]
    exact (runList_congr { p with LastKey := k } p fn rfl _ 0 s).1
  · rw [traversal_congr { p with LastKey := k } p c2 c rfl rfl rfl hc]
    exact (runList_congr { p with LastKey := k } p fn rfl _ 0 s).2.1
  · rw [traversal_congr { p with LastKey := k } p c2 c rfl rfl rfl hc]
    exact (runList_congr { p with LastKey := k } p fn rfl _ 0 s).2.2.1
  · obtain ⟨h1, h2, h3, h4⟩ := runList_frame p fn (p.traversal c) 0 s
    rw [traversal_congr _ p c2 c h1 h3 h4 hc]
    exact (runList_congr _ p fn h2 _ 0 s).1
  · obtain ⟨h1, h2, h3, h4⟩ := runList_frame p fn (p.traversal c) 0 s
    rw [traversal_congr _ p c2 c h1 h3 h4 hc]
    exact (runList_congr _ p fn h2 _ 0 s).2.1

/-- C20 at keys a to e, `Limit` 2, `Asc`: the second run on the Pagination left by the
first visits a and b again. -/
theorem C20_ForEach_ignores_LastKey_witness :
    ∃ r1 r3, (NewPagination none 2 Asc).ForEach (Cursor.fresh abcde) fnSuccess () = some r1 ∧
      r1.p.LastKey = some [99] ∧
      r1.p.ForEach (Cursor.fresh abcde) fnSuccess () = some r3 ∧
      r3.visited = [([97], [1]), ([98], [2])] := by
  obtain ⟨r1, _, r3, h1, _, _, _, _, h3, hc, _⟩ :=
    C20_ForEach_ignores_LastKey (NewPagination none 2 Asc) (some [122]) (Cursor.fresh abcde)
      (Cursor.fresh abcde) fnSuccess () rfl
  have hev : ((NewPagination none 2 Asc).ForEach (Cursor.fresh abcde) fnSuccess ()).map
      (fun r => (r.p.LastKey, r.visited)) = some (some [99], [([97], [1]), ([98], [2])]) := by
    decide
  rw [h1] at hev
  simp only [Option.map_some', Option.some.injEq, Prod.mk.injEq] at hev
  refine ⟨r1, r3, h1, hev.1, h3, ?_⟩
  unfold Run.visited at hev ⊢
  rw [hc]
  exact hev.2

end Bolter
